import Mathlib

/-!
Verification of the road-network shortest-path search of `routes.py`
(functions `read_distances`, `dfs`, `main`).

Modelling conventions:
* Location labels are lists of characters (`Loc`), matching the Python
  strings that come out of `str.split`.
* Edge costs are exact rationals (`ℚ`).  The Python program uses IEEE
  floats, but the spec describes real-valued costs and every claim under
  study concerns exact comparisons (`==`, `<`) on sums of costs, which the
  rational model reflects.
* Python dicts are association lists that keep insertion order
  (`setD`/`getD`, `addConn`/`getR`), exactly the observable behaviour of
  dict assignment, membership test and iteration.
* The unbounded recursion of `dfs` is embedded with an explicit fuel
  parameter that bounds the recursion depth; `.error .fuelOut` means the
  recursion was cut off, `.ok` means the Python recursion completes and
  returns this table.  A `.error .keyError` marks the `roads[place]`
  lookup failing (Python KeyError).
* Fallible code returns `Except`; the loader errors distinguish the Python
  IndexError (missing field) from ValueError (float conversion failure).
-/

/-- Decidable equality for `Except`, used to evaluate concrete runs. -/
instance {ε α : Type} [DecidableEq ε] [DecidableEq α] : DecidableEq (Except ε α) := fun a b =>
  match a, b with
  | .error e, .error f =>
    if h : e = f then isTrue (by rw [h]) else isFalse (fun hc => by cases hc; exact h rfl)
  | .error _, .ok _ => isFalse (fun hc => by cases hc)
  | .ok _, .error _ => isFalse (fun hc => by cases hc)
  | .ok x, .ok y =>
    if h : x = y then isTrue (by rw [h]) else isFalse (fun hc => by cases hc; exact h rfl)

/-- A location label: the character content of a Python string. -/
abbrev Loc := List Char

/-- Neighbor list: the value type of the connections dict. -/
abbrev Nbrs := List (Loc × ℚ)

/-- The road network: dict mapping each location to its neighbor list. -/
abbrev Roads := List (Loc × Nbrs)

/-- The distance table: dict mapping locations to best known distances. -/
abbrev DTable := List (Loc × ℚ)

/-- Dict lookup on the distance table (Python `distances[place]`,
`place in distances`). -/
def getD : DTable → Loc → Option ℚ
  | [], _ => none
  | (k, v) :: rest, key => if k = key then some v else getD rest key

/-- Dict assignment on the distance table (Python `distances[place] = v`):
updates an existing key in place, appends a missing key at the end,
matching insertion-ordered Python dicts. -/
def setD : DTable → Loc → ℚ → DTable
  | [], key, v => [(key, v)]
  | (k, w) :: rest, key, v =>
    if k = key then (k, v) :: rest else (k, w) :: setD rest key v

/-- Dict lookup on the road network (Python `roads[place]`). -/
def getR : Roads → Loc → Option Nbrs
  | [], _ => none
  | (k, v) :: rest, key => if k = key then some v else getR rest key

/-- Python membership test `place in connections`. -/
def containsR (roads : Roads) (key : Loc) : Bool :=
  (getR roads key).isSome

/-- Python `connections[place].append(entry)` (the key is assumed present;
on a missing key this is the identity, but `addConn` only calls it after
inserting the key). -/
def appendNbr : Roads → Loc → Loc × ℚ → Roads
  | [], _, _ => []
  | (k, l) :: rest, key, e =>
    if k = key then (k, l ++ [e]) :: rest else (k, l) :: appendNbr rest key e

/-- The two statements
`if not (place in connections): connections[place] = []` and
`connections[place].append((to, cost))` from `read_distances`. -/
def addConn (conns : Roads) (frm dst : Loc) (cost : ℚ) : Roads :=
  let conns := if containsR conns frm then conns else conns ++ [(frm, [])]
  appendNbr conns frm (dst, cost)

/-- Python `str.strip()`: remove leading and trailing whitespace. -/
def trimChars (l : Loc) : Loc :=
  ((l.dropWhile Char.isWhitespace).reverse.dropWhile Char.isWhitespace).reverse

/-- Python `line.startswith("#")` on the stripped line. -/
def startsWithHash : Loc → Bool
  | '#' :: _ => true
  | _ => false

/-- Python `line.split(",")`: split on every comma, keeping empty fields;
the result is always non-empty. -/
def splitOnComma : Loc → List Loc
  | [] => [[]]
  | c :: rest =>
    if c = ',' then [] :: splitOnComma rest
    else
      match splitOnComma rest with
      | [] => [[c]]
      | f :: fs => (c :: f) :: fs

/-- Numeric value of a digit string. -/
def natOfDigits (l : List Char) : Nat :=
  l.foldl (fun a c => a * 10 + (c.toNat - 48)) 0

/-- Addition of rationals through the smart constructor `mkRat`.  It is
proved equal to `(· + ·)` in `qadd_eq`; the embedding uses it because it
evaluates inside the kernel, which the library addition on `ℚ` does not. -/
def qadd (a b : ℚ) : ℚ := mkRat (a.num * b.den + b.num * a.den) (a.den * b.den)

/-- The custom addition agrees with the field addition of `ℚ`. -/
theorem qadd_eq (a b : ℚ) : qadd a b = a + b := by
  rw [qadd, Rat.mkRat_eq_div]
  push_cast
  conv_rhs => rw [← Rat.num_div_den a, ← Rat.num_div_den b]
  have ha : (a.den : ℚ) ≠ 0 := by positivity
  have hb : (b.den : ℚ) ≠ 0 := by positivity
  field_simp

/-- Modelled from the Python builtin `float`: parses an optionally signed
plain decimal numeral (digits, optionally with one decimal point), after
stripping surrounding whitespace, into the exact rational it denotes
(for the digits `ip.fp` the value `(ip * 10 ^ k + fp) / 10 ^ k`).
Exponents, infinities and NaN are outside the model; every cost literal
appearing in the spec and claims is covered. -/
def parseFloat (l : Loc) : Option ℚ :=
  let t := trimChars l
  let neg : Bool := match t with
    | '-' :: _ => true
    | _ => false
  let body : Loc := match t with
    | '-' :: rest => rest
    | '+' :: rest => rest
    | _ => t
  let signed : Int → Int := fun n => if neg then -n else n
  let ip := body.takeWhile Char.isDigit
  let rest := body.dropWhile Char.isDigit
  match rest with
  | [] => if ip.isEmpty then none else some (mkRat (signed (natOfDigits ip)) 1)
  | '.' :: fp =>
    if fp.all Char.isDigit && !(ip.isEmpty && fp.isEmpty) then
      some (mkRat (signed ((natOfDigits ip) * 10 ^ fp.length + natOfDigits fp))
        (10 ^ fp.length))
    else none
  | _ => none

/-- The two failure modes of the loader: a missing field (Python
IndexError on `fields[1]` or `fields[2]`) and a malformed cost field
(Python ValueError from `float`, the ParseError of the spec). -/
inductive LoadError
  | indexError
  | valueError
deriving DecidableEq

/-- The loop body of `read_distances` for one input line: strip, skip
comments and blanks, split on commas, read `fields[0]`, `fields[1]`,
`float(fields[2])` in that order, then append both directed entries. -/
def processLine (conns : Roads) (line : String) : Except LoadError Roads :=
  let l := trimChars line.toList
  if startsWithHash l || l.isEmpty then .ok conns
  else
    let fields := splitOnComma l
    match fields.get? 1 with
    | none => .error .indexError
    | some place_to =>
      match fields.get? 2 with
      | none => .error .indexError
      | some costField =>
        let place_from := fields.headI
        match parseFloat costField with
        | none => .error .valueError
        | some cost =>
          .ok (addConn (addConn conns place_from place_to cost) place_to place_from cost)

/-- The loop of `read_distances` over the input lines, threading the
connections dict; the first exception aborts the load. -/
def loadLines : List String → Roads → Except LoadError Roads
  | [], conns => .ok conns
  | line :: rest, conns =>
    match processLine conns line with
    | .error e => .error e
    | .ok conns => loadLines rest conns

/-- Python `read_distances(map_file)`: build the connections dict from the
lines of the map file. -/
def read_distances (lines : List String) : Except LoadError Roads :=
  loadLines lines []

/-- Outcomes that distinguish a cut-off recursion (`fuelOut`: the model
ran out of fuel, the Python recursion is still running) from a Python
KeyError on `roads[place]`. -/
inductive DfsError
  | fuelOut
  | keyError
deriving DecidableEq

/-- The `for next_location in roads[place]: dfs(...)` loop: run `f` (one
recursive `dfs` call) on each neighbor with the cumulative distance
increased by the hop cost, threading the mutated distance table;
exceptions propagate. -/
def runList (f : Loc → ℚ → DTable → Except DfsError DTable) :
    Nbrs → ℚ → DTable → Except DfsError DTable
  | [], _, dist => .ok dist
  | (next, cost) :: rest, dsf, dist =>
    match f next (qadd dsf cost) dist with
    | .error e => .error e
    | .ok dist => runList f rest dsf dist

/-- One call body of `dfs(place, dist_so_far, roads, distances)` with the
recursive call abstracted as `f`.  Mirrors the source line by line:
first the insert-on-first-visit, then the equal-distance branch
(`distances[place] == dist_so_far`), then — re-reading the possibly
mutated table — the strictly-shorter branch
(`dist_so_far < distances[place]`), which overwrites the entry and
re-explores the neighbors of the original `place` (the Python loop
rebinds the name `place`, but both `roads[place]` and the assignment
happened before the first rebinding). -/
def dfsStep (f : Loc → ℚ → DTable → Except DfsError DTable)
    (place : Loc) (dsf : ℚ) (roads : Roads) (dist : DTable) :
    Except DfsError DTable :=
  let dist1 : DTable :=
    match getD dist place with
    | none => setD dist place dsf
    | some _ => dist
  match getD dist1 place with
  | none => .error .keyError
  | some entry =>
    let step2 : Except DfsError DTable :=
      if entry = dsf then
        match getR roads place with
        | none => .error .keyError
        | some nbrs => runList f nbrs dsf dist1
      else .ok dist1
    match step2 with
    | .error e => .error e
    | .ok dist2 =>
      match getD dist2 place with
      | none => .error .keyError
      | some entry2 =>
        if dsf < entry2 then
          match getR roads place with
          | none => .error .keyError
          | some nbrs => runList f nbrs dsf (setD dist2 place dsf)
        else .ok dist2

/-- Python `dfs` with a fuel bound on the recursion depth: each level of
recursion consumes one unit of fuel, so `.ok` results are exactly the
completed runs of the unbounded Python recursion. -/
def dfsFuel : Nat → Loc → ℚ → Roads → DTable → Except DfsError DTable
  | 0, _, _, _, _ => .error .fuelOut
  | fuel + 1, place, dsf, roads, dist =>
    dfsStep (fun p d t => dfsFuel fuel p d roads t) place dsf roads dist

/-- The reportable outcomes of `main`: the diagnostics that exit with
status 1, the found distance, and the unreachable message. -/
inductive MainResult
  | loadError (e : LoadError)
  | startMissing (s : String)
  | destMissing (s : String)
  | distance (q : ℚ)
  | unreachable
deriving DecidableEq

/-- Exit status of the process for each outcome (`exit(1)` for the two
missing-location diagnostics, 1 for an uncaught loader exception, 0 for a
normal report). -/
def exitCode : MainResult → Nat
  | .loadError _ => 1
  | .startMissing _ => 1
  | .destMissing _ => 1
  | .distance _ => 0
  | .unreachable => 0

/-- Python `main()`: load the map, check the start place then the
destination (exiting on the first failing check), run
`dfs(start_place, 0.0, roads, {})`, then report the destination entry of
the distance table, or the unreachable message when it is absent. -/
def mainRun (fuel : Nat) (start_place destination : String) (lines : List String) :
    Except DfsError MainResult :=
  match read_distances lines with
  | .error e => .ok (.loadError e)
  | .ok roads =>
    if !containsR roads start_place.toList then .ok (.startMissing start_place)
    else if !containsR roads destination.toList then .ok (.destMissing destination)
    else
      match dfsFuel fuel start_place.toList 0 roads [] with
      | .error e => .error e
      | .ok distances =>
        match getD distances destination.toList with
        | some d => .ok (.distance d)
        | none => .ok .unreachable

/-! ### Basic dictionary lemmas -/

/-- Reading back after an assignment: the assigned key holds the new
value, every other key is unchanged. -/
theorem getD_setD (t : DTable) (k : Loc) (v : ℚ) (k' : Loc) :
    getD (setD t k v) k' = if k = k' then some v else getD t k' := by
  induction t with
  | nil => simp [getD, setD]
  | cons kv rest ih =>
    obtain ⟨k0, v0⟩ := kv
    by_cases h0 : k0 = k
    · subst h0
      by_cases h1 : k0 = k'
      · subst h1; simp [getD, setD]
      · simp [getD, setD, h1]
    · by_cases h1 : k0 = k'
      · subst h1
        have : ¬ k = k0 := fun hc => h0 hc.symm
        simp [getD, setD, h0, this]
      · simp [getD, setD, h0, h1, ih]

/-- Reading the assigned key back. -/
theorem getD_setD_self (t : DTable) (k : Loc) (v : ℚ) :
    getD (setD t k v) k = some v := by
  rw [getD_setD, if_pos rfl]

/-- Reading another key after an assignment. -/
theorem getD_setD_ne (t : DTable) (k : Loc) (v : ℚ) (k' : Loc) (h : k ≠ k') :
    getD (setD t k v) k' = getD t k' := by
  rw [getD_setD, if_neg h]

/-- Pointwise comparison of two distance tables: every key of `t1` is
present in `t2` with a value that is at most its `t1` value.  This is the
shape in which monotone non-increase of the table composes. -/
def DistLe (t2 t1 : DTable) : Prop :=
  ∀ k v, getD t1 k = some v → ∃ w, getD t2 k = some w ∧ w ≤ v

theorem distLe_refl (t : DTable) : DistLe t t :=
  fun _k v h => ⟨v, h, le_refl v⟩

theorem distLe_trans {t3 t2 t1 : DTable} (h32 : DistLe t3 t2) (h21 : DistLe t2 t1) :
    DistLe t3 t1 := by
  intro k v h1
  obtain ⟨w, hw, hwv⟩ := h21 k v h1
  obtain ⟨u, hu, huw⟩ := h32 k w hw
  exact ⟨u, hu, le_trans huw hwv⟩

/-- Inserting a fresh key only adds an entry. -/
theorem distLe_setD_insert {t : DTable} {k : Loc} (v : ℚ) (h : getD t k = none) :
    DistLe (setD t k v) t := by
  intro k' v' h'
  refine ⟨v', ?_, le_refl v'⟩
  rw [getD_setD]
  split
  · next heq => rw [heq, h'] at h; cases h
  · exact h'

/-- Overwriting a key with a value no greater than the old one lowers the
table pointwise. -/
theorem distLe_setD_lower {t : DTable} {k : Loc} {v w : ℚ}
    (hget : getD t k = some w) (hle : v ≤ w) : DistLe (setD t k v) t := by
  intro k' v' h'
  rw [getD_setD]
  split
  · next heq =>
    subst heq
    rw [hget] at h'
    cases h'
    exact ⟨v, rfl, hle⟩
  · exact ⟨v', h', le_refl v'⟩

/-! ### Monotone non-increase of the distance table -/

/-- The neighbor loop only lowers the table, provided each recursive call
does. -/
theorem runList_mono {f : Loc → ℚ → DTable → Except DfsError DTable}
    (hf : ∀ p d t out, f p d t = .ok out → DistLe out t) :
    ∀ (nbrs : Nbrs) (dsf : ℚ) (t out : DTable),
      runList f nbrs dsf t = .ok out → DistLe out t := by
  intro nbrs
  induction nbrs with
  | nil =>
    intro dsf t out h
    simp only [runList] at h
    cases h
    exact distLe_refl _
  | cons yc rest ih =>
    obtain ⟨y, c⟩ := yc
    intro dsf t out h
    simp only [runList] at h
    cases hc : f y (qadd dsf c) t with
    | error e => rw [hc] at h; cases h
    | ok t1 =>
      rw [hc] at h
      exact distLe_trans (ih dsf t1 out h) (hf _ _ _ _ hc)

/-- One call body only lowers the table, provided the recursive calls
do. -/
theorem dfsStep_mono {f : Loc → ℚ → DTable → Except DfsError DTable}
    (hf : ∀ p d t out, f p d t = .ok out → DistLe out t)
    {place : Loc} {dsf : ℚ} {roads : Roads} {dist out : DTable}
    (h : dfsStep f place dsf roads dist = .ok out) : DistLe out dist := by
  cases hgd : getD dist place with
  | none =>
    simp only [dfsStep, hgd, getD_setD_self, if_true] at h
    have hins : DistLe (setD dist place dsf) dist := distLe_setD_insert dsf hgd
    cases hgr : getR roads place with
    | none => simp only [hgr] at h; exact Except.noConfusion h
    | some nbrs =>
      simp only [hgr] at h
      cases hrl : runList f nbrs dsf (setD dist place dsf) with
      | error e => simp only [hrl] at h; exact Except.noConfusion h
      | ok dist2 =>
        simp only [hrl] at h
        have h2 : DistLe dist2 dist :=
          distLe_trans (runList_mono hf nbrs dsf _ dist2 hrl) hins
        cases hg2 : getD dist2 place with
        | none => simp only [hg2] at h; exact Except.noConfusion h
        | some entry2 =>
          simp only [hg2] at h
          by_cases hlt : dsf < entry2
          · simp only [if_pos hlt] at h
            have hset : DistLe (setD dist2 place dsf) dist2 :=
              distLe_setD_lower hg2 (le_of_lt hlt)
            exact distLe_trans
              (distLe_trans (runList_mono hf nbrs dsf _ out h) hset) h2
          · simp only [if_neg hlt] at h
            cases h
            exact h2
  | some entry =>
    simp only [dfsStep, hgd] at h
    by_cases he : entry = dsf
    · simp only [if_pos he] at h
      cases hgr : getR roads place with
      | none => simp only [hgr] at h; exact Except.noConfusion h
      | some nbrs =>
        simp only [hgr] at h
        cases hrl : runList f nbrs dsf dist with
        | error e => simp only [hrl] at h; exact Except.noConfusion h
        | ok dist2 =>
          simp only [hrl] at h
          have h2 : DistLe dist2 dist := runList_mono hf nbrs dsf dist dist2 hrl
          cases hg2 : getD dist2 place with
          | none => simp only [hg2] at h; exact Except.noConfusion h
          | some entry2 =>
            simp only [hg2] at h
            by_cases hlt : dsf < entry2
            · simp only [if_pos hlt] at h
              have hset : DistLe (setD dist2 place dsf) dist2 :=
                distLe_setD_lower hg2 (le_of_lt hlt)
              exact distLe_trans
                (distLe_trans (runList_mono hf nbrs dsf _ out h) hset) h2
            · simp only [if_neg hlt] at h
              cases h
              exact h2
    · simp only [if_neg he, hgd] at h
      by_cases hlt : dsf < entry
      · simp only [if_pos hlt] at h
        cases hgr : getR roads place with
        | none => simp only [hgr] at h; exact Except.noConfusion h
        | some nbrs =>
          simp only [hgr] at h
          have hset : DistLe (setD dist place dsf) dist :=
            distLe_setD_lower hgd (le_of_lt hlt)
          exact distLe_trans (runList_mono hf nbrs dsf _ out h) hset
      · simp only [if_neg hlt] at h
        cases h
        exact distLe_refl _

/-- A completed `dfs` run never raises and never removes an entry of the
distance table. -/
theorem dfsFuel_mono :
    ∀ (fuel : Nat) (place : Loc) (dsf : ℚ) (roads : Roads) (dist out : DTable),
      dfsFuel fuel place dsf roads dist = .ok out → DistLe out dist := by
  intro fuel
  induction fuel with
  | zero => intro p d roads t out h; cases h
  | succ fuel ih =>
    intro p d roads t out h
    exact dfsStep_mono (fun p' d' t' out' h' => ih p' d' roads t' out' h') h

/-! ### The visited place ends with an entry at most `dist_so_far` -/

/-- After one call body, the visited place has an entry bounded by the
cumulative distance at which it was called. -/
theorem dfsStep_entry {f : Loc → ℚ → DTable → Except DfsError DTable}
    (hf : ∀ p d t out, f p d t = .ok out → DistLe out t)
    {place : Loc} {dsf : ℚ} {roads : Roads} {dist out : DTable}
    (h : dfsStep f place dsf roads dist = .ok out) :
    ∃ v, getD out place = some v ∧ v ≤ dsf := by
  cases hgd : getD dist place with
  | none =>
    simp only [dfsStep, hgd, getD_setD_self, if_true] at h
    cases hgr : getR roads place with
    | none => simp only [hgr] at h; exact Except.noConfusion h
    | some nbrs =>
      simp only [hgr] at h
      cases hrl : runList f nbrs dsf (setD dist place dsf) with
      | error e => simp only [hrl] at h; exact Except.noConfusion h
      | ok dist2 =>
        simp only [hrl] at h
        have h2 : DistLe dist2 (setD dist place dsf) :=
          runList_mono hf nbrs dsf _ dist2 hrl
        cases hg2 : getD dist2 place with
        | none => simp only [hg2] at h; exact Except.noConfusion h
        | some entry2 =>
          simp only [hg2] at h
          by_cases hlt : dsf < entry2
          · simp only [if_pos hlt] at h
            have h3 : DistLe out (setD dist2 place dsf) :=
              runList_mono hf nbrs dsf _ out h
            obtain ⟨v, hv, hvle⟩ := h3 place dsf (getD_setD_self dist2 place dsf)
            exact ⟨v, hv, hvle⟩
          · simp only [if_neg hlt] at h
            cases h
            obtain ⟨v, hv, hvle⟩ := h2 place dsf (getD_setD_self dist place dsf)
            exact ⟨v, hv, hvle⟩
  | some entry =>
    simp only [dfsStep, hgd] at h
    by_cases he : entry = dsf
    · subst he
      simp only [if_pos rfl, if_true] at h
      cases hgr : getR roads place with
      | none => simp only [hgr] at h; exact Except.noConfusion h
      | some nbrs =>
        simp only [hgr] at h
        cases hrl : runList f nbrs entry dist with
        | error e => simp only [hrl] at h; exact Except.noConfusion h
        | ok dist2 =>
          simp only [hrl] at h
          have h2 : DistLe dist2 dist := runList_mono hf nbrs entry dist dist2 hrl
          cases hg2 : getD dist2 place with
          | none => simp only [hg2] at h; exact Except.noConfusion h
          | some entry2 =>
            simp only [hg2] at h
            by_cases hlt : entry < entry2
            · simp only [if_pos hlt] at h
              have h3 : DistLe out (setD dist2 place entry) :=
                runList_mono hf nbrs entry _ out h
              obtain ⟨v, hv, hvle⟩ := h3 place entry (getD_setD_self dist2 place entry)
              exact ⟨v, hv, hvle⟩
            · simp only [if_neg hlt] at h
              cases h
              obtain ⟨v, hv, hvle⟩ := h2 place entry hgd
              exact ⟨v, hv, hvle⟩
    · simp only [if_neg he, hgd] at h
      by_cases hlt : dsf < entry
      · simp only [if_pos hlt] at h
        cases hgr : getR roads place with
        | none => simp only [hgr] at h; exact Except.noConfusion h
        | some nbrs =>
          simp only [hgr] at h
          have h3 : DistLe out (setD dist place dsf) :=
            runList_mono hf nbrs dsf _ out h
          obtain ⟨v, hv, hvle⟩ := h3 place dsf (getD_setD_self dist place dsf)
          exact ⟨v, hv, hvle⟩
      · simp only [if_neg hlt] at h
        cases h
        exact ⟨entry, hgd, le_of_not_lt hlt⟩

/-- After the neighbor loop, every processed neighbor has an entry at
most the cumulative distance plus its hop cost. -/
theorem runList_bound {f : Loc → ℚ → DTable → Except DfsError DTable}
    (hf_mono : ∀ p d t out, f p d t = .ok out → DistLe out t)
    (hf_entry : ∀ p d t out, f p d t = .ok out → ∃ v, getD out p = some v ∧ v ≤ d) :
    ∀ (nbrs : Nbrs) (dsf : ℚ) (t out : DTable),
      runList f nbrs dsf t = .ok out →
      ∀ y c, (y, c) ∈ nbrs → ∃ v, getD out y = some v ∧ v ≤ dsf + c := by
  intro nbrs
  induction nbrs with
  | nil =>
    intro dsf t out h y c hmem
    cases hmem
  | cons yc rest ih =>
    obtain ⟨y0, c0⟩ := yc
    intro dsf t out h y c hmem
    simp only [runList] at h
    cases hc : f y0 (qadd dsf c0) t with
    | error e => rw [hc] at h; cases h
    | ok t1 =>
      rw [hc] at h
      rcases List.mem_cons.mp hmem with hhead | htail
      · cases hhead
        obtain ⟨v, hv, hvle⟩ := hf_entry _ _ _ _ hc
        obtain ⟨w, hw, hwle⟩ := runList_mono hf_mono rest dsf t1 out h y0 v hv
        refine ⟨w, hw, ?_⟩
        rw [← qadd_eq]
        exact le_trans hwle hvle
      · exact ih dsf t1 out h y c htail

/-- The fuel-indexed version of `dfsStep_entry`. -/
theorem dfsFuel_entry {fuel : Nat} {place : Loc} {dsf : ℚ} {roads : Roads}
    {dist out : DTable} (h : dfsFuel (fuel + 1) place dsf roads dist = .ok out) :
    ∃ v, getD out place = some v ∧ v ≤ dsf :=
  dfsStep_entry (fun p d t o hp => dfsFuel_mono fuel p d roads t o hp) h

/-! ### The relaxation invariant -/

/-- The edge-relaxation property at one location: the location and all of
its neighbors have entries, and each neighbor entry is at most the
location entry plus the hop cost. -/
def Relaxed (roads : Roads) (t : DTable) (x : Loc) : Prop :=
  ∀ nbrs, getR roads x = some nbrs →
    ∀ y c, (y, c) ∈ nbrs →
      ∃ vx vy, getD t x = some vx ∧ getD t y = some vy ∧ vy ≤ vx + c

/-- The contract of a completed `dfs` call on the relaxation state: every
location that was relaxed before stays relaxed, and every location whose
entry the call touched (inserted or lowered) is relaxed afterwards. -/
def Repair (roads : Roads) (t t' : DTable) : Prop :=
  ∀ x, (Relaxed roads t x ∨ getD t' x ≠ getD t x) → Relaxed roads t' x

theorem repair_refl (roads : Roads) (t : DTable) : Repair roads t t := by
  intro x hx
  rcases hx with hx | hx
  · exact hx
  · exact absurd rfl hx

theorem repair_trans {roads : Roads} {t1 t2 t3 : DTable}
    (h12 : Repair roads t1 t2) (h23 : Repair roads t2 t3) : Repair roads t1 t3 := by
  intro x hx
  by_cases hc : getD t3 x = getD t2 x
  · refine h23 x (Or.inl (h12 x ?_))
    rcases hx with hx | hx
    · exact Or.inl hx
    · exact Or.inr (fun he => hx (hc.trans he))
  · exact h23 x (Or.inr hc)

/-- Inserting a fresh key preserves relaxedness everywhere: any location
that was relaxed cannot mention the fresh key (its entries all exist). -/
theorem relaxed_setD_insert {roads : Roads} {t : DTable} {k : Loc} (v : ℚ)
    (hk : getD t k = none) {x : Loc} (hx : Relaxed roads t x) :
    Relaxed roads (setD t k v) x := by
  intro nbrs hn y c hyc
  obtain ⟨vx, vy, hvx, hvy, hle⟩ := hx nbrs hn y c hyc
  have hxk : x ≠ k := fun he => by rw [he, hk] at hvx; cases hvx
  have hyk : y ≠ k := fun he => by rw [he, hk] at hvy; cases hvy
  refine ⟨vx, vy, ?_, ?_, hle⟩
  · rw [getD_setD_ne t k v x (fun he => hxk he.symm)]; exact hvx
  · rw [getD_setD_ne t k v y (fun he => hyk he.symm)]; exact hvy

/-- Lowering the entry of key `k` preserves relaxedness of every other
location: the lowered key only occurs on the smaller side of the
neighbor inequalities. -/
theorem relaxed_setD_lower {roads : Roads} {t : DTable} {k : Loc} {v w : ℚ}
    (hk : getD t k = some w) (hvw : v ≤ w) {x : Loc} (hne : x ≠ k)
    (hx : Relaxed roads t x) : Relaxed roads (setD t k v) x := by
  intro nbrs hn y c hyc
  obtain ⟨vx, vy, hvx, hvy, hle⟩ := hx nbrs hn y c hyc
  refine ⟨vx, ?_⟩
  by_cases hyk : y = k
  · subst hyk
    rw [hvy] at hk
    cases hk
    refine ⟨v, ?_, getD_setD_self t y v, le_trans hvw hle⟩
    rw [getD_setD_ne t y v x (fun he => hne he.symm)]
    exact hvx
  · refine ⟨vy, ?_, ?_, hle⟩
    · rw [getD_setD_ne t k v x (fun he => hne he.symm)]; exact hvx
    · rw [getD_setD_ne t k v y (fun he => hyk he.symm)]; exact hvy

/-- The neighbor loop satisfies the repair contract when each recursive
call does. -/
theorem runList_repair {roads : Roads} {f : Loc → ℚ → DTable → Except DfsError DTable}
    (hf : ∀ p d t out, f p d t = .ok out → Repair roads t out) :
    ∀ (nbrs : Nbrs) (dsf : ℚ) (t out : DTable),
      runList f nbrs dsf t = .ok out → Repair roads t out := by
  intro nbrs
  induction nbrs with
  | nil =>
    intro dsf t out h
    simp only [runList] at h
    cases h
    exact repair_refl roads _
  | cons yc rest ih =>
    obtain ⟨y, c⟩ := yc
    intro dsf t out h
    simp only [runList] at h
    cases hc : f y (qadd dsf c) t with
    | error e => rw [hc] at h; cases h
    | ok t1 =>
      rw [hc] at h
      exact repair_trans (hf _ _ _ _ hc) (ih dsf t1 out h)

/-- After a set of the entry of `place` to `dsf` followed by the full
neighbor loop, `place` is relaxed: either its entry is still `dsf` and
every neighbor got an entry at most `dsf` plus the hop cost, or a deeper
call changed the entry and the repair contract of the loop applies. -/
theorem relaxed_after_fold {roads : Roads} {f : Loc → ℚ → DTable → Except DfsError DTable}
    (hf_mono : ∀ p d t out, f p d t = .ok out → DistLe out t)
    (hf_entry : ∀ p d t out, f p d t = .ok out → ∃ v, getD out p = some v ∧ v ≤ d)
    (hf_repair : ∀ p d t out, f p d t = .ok out → Repair roads t out)
    {place : Loc} {dsf : ℚ} {nbrs : Nbrs} {t1 out : DTable}
    (hgr : getR roads place = some nbrs)
    (ht1 : getD t1 place = some dsf)
    (h : runList f nbrs dsf t1 = .ok out) :
    Relaxed roads out place := by
  by_cases hch : getD out place = getD t1 place
  · intro nbrs' hn' y c hyc
    rw [hgr] at hn'
    cases hn'
    obtain ⟨vy, hvy, hvyle⟩ := runList_bound hf_mono hf_entry nbrs dsf t1 out h y c hyc
    exact ⟨dsf, vy, by rw [hch, ht1], hvy, hvyle⟩
  · exact runList_repair hf_repair nbrs dsf t1 out h place (Or.inr hch)

/-- One call body satisfies the repair contract, provided the recursive
calls satisfy all three contracts.  The strictly-shorter branch can never
follow a completed equal-distance branch, because the neighbor loop only
lowers the entry of the current place. -/
theorem dfsStep_repair {roads : Roads} {f : Loc → ℚ → DTable → Except DfsError DTable}
    (hf_mono : ∀ p d t out, f p d t = .ok out → DistLe out t)
    (hf_entry : ∀ p d t out, f p d t = .ok out → ∃ v, getD out p = some v ∧ v ≤ d)
    (hf_repair : ∀ p d t out, f p d t = .ok out → Repair roads t out)
    {place : Loc} {dsf : ℚ} {dist out : DTable}
    (h : dfsStep f place dsf roads dist = .ok out) : Repair roads dist out := by
  cases hgd : getD dist place with
  | none =>
    simp only [dfsStep, hgd, getD_setD_self, if_true] at h
    cases hgr : getR roads place with
    | none => simp only [hgr] at h; exact Except.noConfusion h
    | some nbrs =>
      simp only [hgr] at h
      cases hrl : runList f nbrs dsf (setD dist place dsf) with
      | error e => simp only [hrl] at h; exact Except.noConfusion h
      | ok dist2 =>
        simp only [hrl] at h
        obtain ⟨w, hw, hwle⟩ :=
          runList_mono hf_mono nbrs dsf _ dist2 hrl place dsf (getD_setD_self dist place dsf)
        cases hg2 : getD dist2 place with
        | none => rw [hg2] at hw; cases hw
        | some entry2 =>
          simp only [hg2] at h
          rw [hg2] at hw
          cases hw
          simp only [if_neg (not_lt.mpr hwle)] at h
          cases h
          have hplace : Relaxed roads out place :=
            relaxed_after_fold hf_mono hf_entry hf_repair hgr
              (getD_setD_self dist place dsf) hrl
          intro x hx
          by_cases hxp : x = place
          · subst hxp; exact hplace
          · rcases hx with hx | hx
            · exact runList_repair hf_repair nbrs dsf _ out hrl x
                (Or.inl (relaxed_setD_insert dsf hgd hx))
            · refine runList_repair hf_repair nbrs dsf _ out hrl x (Or.inr ?_)
              rw [getD_setD_ne dist place dsf x (fun he => hxp he.symm)]
              exact hx
  | some entry =>
    simp only [dfsStep, hgd] at h
    by_cases he : entry = dsf
    · subst he
      simp only [if_pos rfl, if_true] at h
      cases hgr : getR roads place with
      | none => simp only [hgr] at h; exact Except.noConfusion h
      | some nbrs =>
        simp only [hgr] at h
        cases hrl : runList f nbrs entry dist with
        | error e => simp only [hrl] at h; exact Except.noConfusion h
        | ok dist2 =>
          simp only [hrl] at h
          obtain ⟨w, hw, hwle⟩ :=
            runList_mono hf_mono nbrs entry dist dist2 hrl place entry hgd
          cases hg2 : getD dist2 place with
          | none => rw [hg2] at hw; cases hw
          | some entry2 =>
            simp only [hg2] at h
            rw [hg2] at hw
            cases hw
            simp only [if_neg (not_lt.mpr hwle)] at h
            cases h
            have hplace : Relaxed roads out place :=
              relaxed_after_fold hf_mono hf_entry hf_repair hgr hgd hrl
            intro x hx
            by_cases hxp : x = place
            · subst hxp; exact hplace
            · exact runList_repair hf_repair nbrs entry dist out hrl x hx
    · simp only [if_neg he, hgd] at h
      by_cases hlt : dsf < entry
      · simp only [if_pos hlt] at h
        cases hgr : getR roads place with
        | none => simp only [hgr] at h; exact Except.noConfusion h
        | some nbrs =>
          simp only [hgr] at h
          have hplace : Relaxed roads out place :=
            relaxed_after_fold hf_mono hf_entry hf_repair hgr
              (getD_setD_self dist place dsf) h
          intro x hx
          by_cases hxp : x = place
          · subst hxp; exact hplace
          · rcases hx with hx | hx
            · exact runList_repair hf_repair nbrs dsf _ out h x
                (Or.inl (relaxed_setD_lower hgd (le_of_lt hlt) hxp hx))
            · refine runList_repair hf_repair nbrs dsf _ out h x (Or.inr ?_)
              rw [getD_setD_ne dist place dsf x (fun he2 => hxp he2.symm)]
              exact hx
      · simp only [if_neg hlt] at h
        cases h
        exact repair_refl roads dist

/-- The fuel-indexed version of `dfsStep_entry`, at every fuel value. -/
theorem dfsFuel_entry_all :
    ∀ (fuel : Nat) (p : Loc) (d : ℚ) (roads : Roads) (t out : DTable),
      dfsFuel fuel p d roads t = .ok out → ∃ v, getD out p = some v ∧ v ≤ d := by
  intro fuel
  cases fuel with
  | zero => intro p d roads t out h; cases h
  | succ fuel =>
    intro p d roads t out h
    exact dfsStep_entry (fun p' d' t' o h' => dfsFuel_mono fuel p' d' roads t' o h') h

/-- A completed `dfs` run satisfies the repair contract. -/
theorem dfsFuel_repair :
    ∀ (fuel : Nat) (roads : Roads) (p : Loc) (d : ℚ) (t out : DTable),
      dfsFuel fuel p d roads t = .ok out → Repair roads t out := by
  intro fuel
  induction fuel with
  | zero => intro roads p d t out h; cases h
  | succ fuel ih =>
    intro roads p d t out h
    exact dfsStep_repair (fun p' d' t' o h' => dfsFuel_mono fuel p' d' roads t' o h')
      (fun p' d' t' o h' => dfsFuel_entry_all fuel p' d' roads t' o h')
      (fun p' d' t' o h' => ih roads p' d' t' o h') h

/-! ### Paths and soundness of table entries -/

/-- A path of road hops from `s`, together with its total cost.  The
empty path has cost 0; a path is extended by one entry of the neighbor
list of its endpoint. -/
inductive IsPath (roads : Roads) (s : Loc) : Loc → ℚ → Prop
  | refl : IsPath roads s s 0
  | snoc {y : Loc} {w : ℚ} {nbrs : Nbrs} {z : Loc} {c : ℚ} :
      IsPath roads s y w → getR roads y = some nbrs → (z, c) ∈ nbrs →
      IsPath roads s z (w + c)

/-- Every entry of the table is the cost of an actual path from `s`. -/
def TableSound (roads : Roads) (s : Loc) (t : DTable) : Prop :=
  ∀ k v, getD t k = some v → IsPath roads s k v

/-- Assigning a path cost preserves soundness of the table. -/
theorem tableSound_setD {roads : Roads} {s : Loc} {t : DTable} {k : Loc} {v : ℚ}
    (ht : TableSound roads s t) (hp : IsPath roads s k v) :
    TableSound roads s (setD t k v) := by
  intro k' v' h'
  rw [getD_setD] at h'
  split at h'
  · next heq => cases h'; exact heq ▸ hp
  · exact ht k' v' h'

/-- The neighbor loop preserves soundness when every hop target is
path-reachable at its cumulative cost. -/
theorem runList_sound {roads : Roads} {s : Loc}
    {f : Loc → ℚ → DTable → Except DfsError DTable}
    (hf : ∀ p d t out, f p d t = .ok out →
      IsPath roads s p d → TableSound roads s t → TableSound roads s out) :
    ∀ (nbrs : Nbrs) (dsf : ℚ) (t out : DTable),
      runList f nbrs dsf t = .ok out →
      (∀ y c, (y, c) ∈ nbrs → IsPath roads s y (dsf + c)) →
      TableSound roads s t → TableSound roads s out := by
  intro nbrs
  induction nbrs with
  | nil =>
    intro dsf t out h hpaths ht
    simp only [runList] at h
    cases h
    exact ht
  | cons yc rest ih =>
    obtain ⟨y0, c0⟩ := yc
    intro dsf t out h hpaths ht
    simp only [runList] at h
    cases hc : f y0 (qadd dsf c0) t with
    | error e => rw [hc] at h; cases h
    | ok t1 =>
      rw [hc] at h
      have hp0 : IsPath roads s y0 (qadd dsf c0) := by
        rw [qadd_eq]
        exact hpaths y0 c0 (List.mem_cons_self _ _)
      have ht1 : TableSound roads s t1 := hf _ _ _ _ hc hp0 ht
      exact ih dsf t1 out h (fun y c hm => hpaths y c (List.mem_cons_of_mem _ hm)) ht1

/-- One call body preserves soundness of the table. -/
theorem dfsStep_sound {roads : Roads} {s : Loc}
    {f : Loc → ℚ → DTable → Except DfsError DTable}
    (hf : ∀ p d t out, f p d t = .ok out →
      IsPath roads s p d → TableSound roads s t → TableSound roads s out)
    {place : Loc} {dsf : ℚ} {dist out : DTable}
    (h : dfsStep f place dsf roads dist = .ok out)
    (hp : IsPath roads s place dsf) (ht : TableSound roads s dist) :
    TableSound roads s out := by
  cases hgd : getD dist place with
  | none =>
    simp only [dfsStep, hgd, getD_setD_self, if_true] at h
    have ht1 : TableSound roads s (setD dist place dsf) := tableSound_setD ht hp
    cases hgr : getR roads place with
    | none => simp only [hgr] at h; exact Except.noConfusion h
    | some nbrs =>
      simp only [hgr] at h
      have hpaths : ∀ y c, (y, c) ∈ nbrs → IsPath roads s y (dsf + c) :=
        fun y c hm => IsPath.snoc hp hgr hm
      cases hrl : runList f nbrs dsf (setD dist place dsf) with
      | error e => simp only [hrl] at h; exact Except.noConfusion h
      | ok dist2 =>
        simp only [hrl] at h
        have ht2 : TableSound roads s dist2 :=
          runList_sound hf nbrs dsf _ dist2 hrl hpaths ht1
        cases hg2 : getD dist2 place with
        | none => simp only [hg2] at h; exact Except.noConfusion h
        | some entry2 =>
          simp only [hg2] at h
          by_cases hlt : dsf < entry2
          · simp only [if_pos hlt] at h
            exact runList_sound hf nbrs dsf _ out h hpaths (tableSound_setD ht2 hp)
          · simp only [if_neg hlt] at h
            cases h
            exact ht2
  | some entry =>
    simp only [dfsStep, hgd] at h
    by_cases he : entry = dsf
    · subst he
      simp only [if_pos rfl, if_true] at h
      cases hgr : getR roads place with
      | none => simp only [hgr] at h; exact Except.noConfusion h
      | some nbrs =>
        simp only [hgr] at h
        have hpaths : ∀ y c, (y, c) ∈ nbrs → IsPath roads s y (entry + c) :=
          fun y c hm => IsPath.snoc hp hgr hm
        cases hrl : runList f nbrs entry dist with
        | error e => simp only [hrl] at h; exact Except.noConfusion h
        | ok dist2 =>
          simp only [hrl] at h
          have ht2 : TableSound roads s dist2 :=
            runList_sound hf nbrs entry dist dist2 hrl hpaths ht
          cases hg2 : getD dist2 place with
          | none => simp only [hg2] at h; exact Except.noConfusion h
          | some entry2 =>
            simp only [hg2] at h
            by_cases hlt : entry < entry2
            · simp only [if_pos hlt] at h
              exact runList_sound hf nbrs entry _ out h hpaths (tableSound_setD ht2 hp)
            · simp only [if_neg hlt] at h
              cases h
              exact ht2
    · simp only [if_neg he, hgd] at h
      by_cases hlt : dsf < entry
      · simp only [if_pos hlt] at h
        cases hgr : getR roads place with
        | none => simp only [hgr] at h; exact Except.noConfusion h
        | some nbrs =>
          simp only [hgr] at h
          have hpaths : ∀ y c, (y, c) ∈ nbrs → IsPath roads s y (dsf + c) :=
            fun y c hm => IsPath.snoc hp hgr hm
          exact runList_sound hf nbrs dsf _ out h hpaths (tableSound_setD ht hp)
      · simp only [if_neg hlt] at h
        cases h
        exact ht

/-- A completed `dfs` run preserves soundness of the table. -/
theorem dfsFuel_sound :
    ∀ (fuel : Nat) (roads : Roads) (s p : Loc) (d : ℚ) (t out : DTable),
      dfsFuel fuel p d roads t = .ok out →
      IsPath roads s p d → TableSound roads s t → TableSound roads s out := by
  intro fuel
  induction fuel with
  | zero => intro roads s p d t out h; cases h
  | succ fuel ih =>
    intro roads s p d t out h
    exact dfsStep_sound (fun p' d' t' o h' => ih roads s p' d' t' o h') h

/-! ### Optimality of a completed run -/

/-- All edge costs of the network are non-negative. -/
def nonnegCosts (roads : Roads) : Prop :=
  ∀ e ∈ roads, ∀ yc ∈ e.2, 0 ≤ yc.2

/-- All edge costs of the network are strictly positive. -/
def posCosts (roads : Roads) : Prop :=
  ∀ e ∈ roads, ∀ yc ∈ e.2, 0 < yc.2

instance (roads : Roads) : Decidable (nonnegCosts roads) := by
  unfold nonnegCosts; infer_instance

instance (roads : Roads) : Decidable (posCosts roads) := by
  unfold posCosts; infer_instance

/-- A successful lookup exposes a member of the association list. -/
theorem getR_mem {roads : Roads} {x : Loc} {l : Nbrs} (h : getR roads x = some l) :
    (x, l) ∈ roads := by
  induction roads with
  | nil => cases h
  | cons e rest ih =>
    obtain ⟨k, v⟩ := e
    simp only [getR] at h
    split at h
    · next heq => cases h; exact heq ▸ List.mem_cons_self _ _
    · exact List.mem_cons_of_mem _ (ih h)

/-- With non-negative costs, every path cost is non-negative. -/
theorem isPath_nonneg {roads : Roads} {s : Loc} (hnn : nonnegCosts roads) :
    ∀ {k : Loc} {w : ℚ}, IsPath roads s k w → 0 ≤ w := by
  intro k w hp
  induction hp with
  | refl => exact le_refl 0
  | @snoc y w' nbrs z c _ hgr hm ih =>
    have hc : 0 ≤ c := hnn (y, nbrs) (getR_mem hgr) (z, c) hm
    exact add_nonneg ih hc

/-- The master theorem of a completed top-level run from `s`: every entry
of the final table is the cost of an actual path from `s`, and is a lower
bound on the cost of every path from `s` to its key.  (So each entry is
the minimum path cost, with no sign assumption on the costs.) -/
theorem dfsFuel_run_optimal {fuel : Nat} {roads : Roads} {s : Loc} {out : DTable}
    (hrun : dfsFuel fuel s 0 roads [] = .ok out) :
    (∀ k v, getD out k = some v → IsPath roads s k v) ∧
    (∀ k v, getD out k = some v → ∀ w, IsPath roads s k w → v ≤ w) := by
  have htsound : TableSound roads s out :=
    dfsFuel_sound fuel roads s s 0 [] out hrun IsPath.refl (fun k v h => by cases h)
  refine ⟨htsound, ?_⟩
  have hrep := dfsFuel_repair fuel roads s 0 [] out hrun
  have hrelax : ∀ x v, getD out x = some v → Relaxed roads out x := by
    intro x v hv
    refine hrep x (Or.inr ?_)
    intro hc
    rw [hv] at hc
    cases hc
  obtain ⟨v0, hv0, hv0le⟩ := dfsFuel_entry_all fuel s 0 roads [] out hrun
  have key : ∀ k w, IsPath roads s k w → ∃ u, getD out k = some u ∧ u ≤ w := by
    intro k w hw
    induction hw with
    | refl => exact ⟨v0, hv0, hv0le⟩
    | @snoc y w' nbrs z c _ hgr hm ih =>
      obtain ⟨u, hu, hule⟩ := ih
      obtain ⟨vx, vz, hvx, hvz, hle⟩ := hrelax y u hu nbrs hgr z c hm
      rw [hu] at hvx
      cases hvx
      refine ⟨vz, hvz, le_trans hle ?_⟩
      exact add_le_add_right hule c
  intro k v hv w hw
  obtain ⟨u, hu, hule⟩ := key k w hw
  rw [hv] at hu
  cases hu
  exact hule

/-! ### Characterization of the loader -/

/-- The parsed content of one input line: `none` for a comment or a blank
line, otherwise the record `(from, to, cost)`; also `none` on the lines
the loader rejects, which cannot occur in a successfully loaded input. -/
def lineRecord (line : String) : Option (Loc × Loc × ℚ) :=
  let l := trimChars line.toList
  if startsWithHash l || l.isEmpty then none
  else
    let fields := splitOnComma l
    match fields.get? 1, fields.get? 2 with
    | some place_to, some costField =>
      match parseFloat costField with
      | some cost => some (fields.headI, place_to, cost)
      | none => none
    | _, _ => none

/-- All records of the input, in input order. -/
def parsedRecords (lines : List String) : List (Loc × Loc × ℚ) :=
  lines.filterMap lineRecord

/-- The two directed adjacency entries each record contributes to the
neighbor list of `x`, concatenated in input order. -/
def neighborsFromRecords : List (Loc × Loc × ℚ) → Loc → Nbrs
  | [], _ => []
  | (a, b, c) :: rest, x =>
    ((if a = x then [(b, c)] else []) ++ (if b = x then [(a, c)] else [])) ++
      neighborsFromRecords rest x

/-- Some record uses `x` as one of its two endpoints. -/
def mentionsLoc (recs : List (Loc × Loc × ℚ)) (x : Loc) : Bool :=
  recs.any (fun r => r.1 = x || r.2.1 = x)

/-- The connections dict built from a record prefix: keys are exactly the
mentioned locations and each key holds the record-derived entries in
order. -/
def RoadsMatch (recs : List (Loc × Loc × ℚ)) (conns : Roads) : Prop :=
  ∀ x, getR conns x =
    if mentionsLoc recs x then some (neighborsFromRecords recs x) else none

/-- Appending one neighbor entry rewrites only the list of its key. -/
theorem getR_appendNbr (conns : Roads) (k : Loc) (e : Loc × ℚ) (x : Loc) :
    getR (appendNbr conns k e) x =
      if k = x then (getR conns x).map (· ++ [e]) else getR conns x := by
  induction conns with
  | nil =>
    by_cases h : k = x
    · simp [appendNbr, getR, h]
    · simp [appendNbr, getR, h]
  | cons kv rest ih =>
    obtain ⟨k0, l0⟩ := kv
    by_cases h0 : k0 = k
    · subst h0
      by_cases h1 : k0 = x
      · subst h1; simp [appendNbr, getR]
      · simp [appendNbr, getR, h1]
    · by_cases h1 : k0 = x
      · subst h1
        have : ¬ k = k0 := fun hc => h0 hc.symm
        simp [appendNbr, getR, h0, this]
      · simp [appendNbr, getR, h0, h1, ih]

/-- Lookup in the dict extended by a fresh empty key. -/
theorem getR_extend (conns : Roads) (k : Loc) (x : Loc) :
    getR (conns ++ [(k, [])]) x =
      if getR conns x = none ∧ k = x then some [] else getR conns x := by
  induction conns with
  | nil =>
    by_cases h : k = x
    · simp [getR, h]
    · simp [getR, h]
  | cons kv rest ih =>
    obtain ⟨k0, l0⟩ := kv
    by_cases h1 : k0 = x
    · subst h1; simp [getR]
    · simp [getR, h1, ih]

/-- The effect of one `addConn` on every lookup. -/
theorem getR_addConn (conns : Roads) (a b : Loc) (c : ℚ) (x : Loc) :
    getR (addConn conns a b c) x =
      if a = x then some (((getR conns x).getD []) ++ [(b, c)]) else getR conns x := by
  unfold addConn containsR
  by_cases hax : a = x
  · subst hax
    cases hg : getR conns a with
    | none =>
      simp only [hg, Option.isSome_none, Bool.false_eq_true, if_false, if_pos rfl]
      rw [getR_appendNbr, if_pos rfl, getR_extend, if_pos ⟨hg, rfl⟩]
      simp
    | some l =>
      simp only [hg, Option.isSome_some, if_true]
      rw [getR_appendNbr, if_pos rfl, hg]
      simp
  · cases hg : getR conns a with
    | none =>
      simp only [hg, Option.isSome_none, Bool.false_eq_true, if_false, if_neg hax]
      rw [getR_appendNbr, if_neg hax, getR_extend]
      have : ¬ (getR conns x = none ∧ a = x) := fun hc => hax hc.2
      rw [if_neg this]
    | some l =>
      simp only [hg, Option.isSome_some, if_true, if_neg hax]
      rw [getR_appendNbr, if_neg hax]

/-- Appending one record extends the mention test. -/
theorem mentionsLoc_append (recs : List (Loc × Loc × ℚ)) (r : Loc × Loc × ℚ) (x : Loc) :
    mentionsLoc (recs ++ [r]) x = (mentionsLoc recs x || (r.1 = x || r.2.1 = x)) := by
  simp [mentionsLoc, List.any_append]

/-- Appending one record appends its two entries. -/
theorem nfr_append_single (recs : List (Loc × Loc × ℚ)) (a b : Loc) (c : ℚ) (x : Loc) :
    neighborsFromRecords (recs ++ [(a, b, c)]) x =
      neighborsFromRecords recs x ++
        ((if a = x then [(b, c)] else []) ++ (if b = x then [(a, c)] else [])) := by
  induction recs with
  | nil => simp [neighborsFromRecords]
  | cons r rest ih =>
    obtain ⟨a0, b0, c0⟩ := r
    simp only [List.cons_append, neighborsFromRecords, List.append_eq, ih, List.append_assoc]

/-- An unmentioned location contributes no entries. -/
theorem nfr_nil_of_not_mentions {recs : List (Loc × Loc × ℚ)} {x : Loc}
    (h : mentionsLoc recs x = false) : neighborsFromRecords recs x = [] := by
  induction recs with
  | nil => rfl
  | cons r rest ih =>
    obtain ⟨a0, b0, c0⟩ := r
    simp only [mentionsLoc, List.any_cons, Bool.or_eq_false_iff] at h
    obtain ⟨h0, h1⟩ := h
    simp only [Bool.or_eq_false_iff, decide_eq_false_iff_not] at h0
    simp only [neighborsFromRecords, if_neg h0.1, if_neg h0.2, List.nil_append]
    exact ih h1

/-- What one accepted line does to the connections dict, in terms of its
parsed record: a comment or blank line leaves the dict unchanged, a
record line appends its two directed entries. -/
theorem processLine_record {conns conns' : Roads} {line : String}
    (h : processLine conns line = .ok conns') :
    (lineRecord line = none ∧ conns' = conns) ∨
    ∃ a b c, lineRecord line = some (a, b, c) ∧
      conns' = addConn (addConn conns a b c) b a c := by
  simp only [processLine] at h
  by_cases hcb : (startsWithHash (trimChars line.toList) || (trimChars line.toList).isEmpty) = true
  · rw [if_pos hcb] at h
    cases h
    exact Or.inl ⟨by simp only [lineRecord, if_pos hcb], rfl⟩
  · rw [if_neg hcb] at h
    cases hget1 : (splitOnComma (trimChars line.toList)).get? 1 with
    | none => simp only [hget1] at h; exact Except.noConfusion h
    | some pt =>
      simp only [hget1] at h
      cases hget2 : (splitOnComma (trimChars line.toList)).get? 2 with
      | none => simp only [hget2] at h; exact Except.noConfusion h
      | some cf =>
        simp only [hget2] at h
        cases hpf : parseFloat cf with
        | none => simp only [hpf] at h; exact Except.noConfusion h
        | some cost =>
          simp only [hpf] at h
          cases h
          refine Or.inr ⟨(splitOnComma (trimChars line.toList)).headI, pt, cost, ?_, rfl⟩
          simp only [lineRecord, if_neg hcb, hget1, hget2, hpf]

/-- The invariant step: processing one accepted line extends the record
characterization of the connections dict. -/
theorem processLine_match {recs : List (Loc × Loc × ℚ)} {conns conns' : Roads}
    (hm : RoadsMatch recs conns) {line : String}
    (h : processLine conns line = .ok conns') :
    RoadsMatch (recs ++ (lineRecord line).toList) conns' := by
  rcases processLine_record h with ⟨hlr, rfl⟩ | ⟨a, b, c, hlr, rfl⟩
  · rw [hlr]
    simpa using hm
  · rw [hlr]
    intro x
    rw [getR_addConn, getR_addConn]
    simp only [Option.toList_some]
    rw [mentionsLoc_append, nfr_append_single]
    have hmx := hm x
    by_cases hhd : a = x
    · by_cases hpt : b = x
      · rw [if_pos hpt, if_pos hhd, hmx]
        by_cases hme : mentionsLoc recs x = true
        · simp [hme, hhd, hpt]
        · rw [Bool.not_eq_true] at hme
          simp [hme, hhd, hpt, nfr_nil_of_not_mentions hme]
      · rw [if_neg hpt, if_pos hhd, hmx]
        by_cases hme : mentionsLoc recs x = true
        · simp [hme, hhd, hpt]
        · rw [Bool.not_eq_true] at hme
          simp [hme, hhd, hpt, nfr_nil_of_not_mentions hme]
    · by_cases hpt : b = x
      · rw [if_pos hpt, if_neg hhd, hmx]
        by_cases hme : mentionsLoc recs x = true
        · simp [hme, hhd, hpt]
        · rw [Bool.not_eq_true] at hme
          simp [hme, hhd, hpt, nfr_nil_of_not_mentions hme]
      · rw [if_neg hpt, if_neg hhd, hmx]
        by_cases hme : mentionsLoc recs x = true
        · simp [hme, hhd, hpt]
        · rw [Bool.not_eq_true] at hme
          simp [hme, hhd, hpt]

/-- The loop invariant of the loader. -/
theorem loadLines_match :
    ∀ (lines : List String) (recs : List (Loc × Loc × ℚ)) (conns conns' : Roads),
      RoadsMatch recs conns → loadLines lines conns = .ok conns' →
      RoadsMatch (recs ++ parsedRecords lines) conns' := by
  intro lines
  induction lines with
  | nil =>
    intro recs conns conns' hm h
    simp only [loadLines] at h
    cases h
    simpa [parsedRecords] using hm
  | cons line rest ih =>
    intro recs conns conns' hm h
    simp only [loadLines] at h
    cases hp : processLine conns line with
    | error e => rw [hp] at h; cases h
    | ok conns1 =>
      rw [hp] at h
      have h1 := processLine_match hm hp
      have h2 := ih (recs ++ (lineRecord line).toList) conns1 conns' h1 h
      rw [List.append_assoc] at h2
      have : parsedRecords (line :: rest) = (lineRecord line).toList ++ parsedRecords rest := by
        simp only [parsedRecords, List.filterMap_cons]
        cases lineRecord line <;> simp
      rw [this]
      exact h2

/-- The full characterization of a successfully loaded network: the keys
are exactly the mentioned locations and each neighbor list consists of
the two directed entries of each record, in input order, duplicates
kept. -/
theorem read_distances_match {lines : List String} {conns : Roads}
    (h : read_distances lines = .ok conns) :
    RoadsMatch (parsedRecords lines) conns := by
  have h0 : RoadsMatch [] [] := by
    intro x
    simp [getR, mentionsLoc]
  have := loadLines_match lines [] [] conns h0 h
  simpa using this

/-- Every entry of a record-derived neighbor list names a mentioned
location. -/
theorem mem_nfr_mentions {recs : List (Loc × Loc × ℚ)} {x y : Loc} {c : ℚ}
    (h : (y, c) ∈ neighborsFromRecords recs x) : mentionsLoc recs y = true := by
  induction recs with
  | nil => cases h
  | cons r rest ih =>
    obtain ⟨a0, b0, c0⟩ := r
    simp only [neighborsFromRecords, List.mem_append] at h
    rcases h with (h1 | h2) | hr
    · by_cases ha : a0 = x
      · rw [if_pos ha] at h1
        simp only [List.mem_singleton, Prod.mk.injEq] at h1
        obtain ⟨hy, _⟩ := h1
        subst hy
        simp [mentionsLoc]
      · rw [if_neg ha] at h1; cases h1
    · by_cases hb : b0 = x
      · rw [if_pos hb] at h2
        simp only [List.mem_singleton, Prod.mk.injEq] at h2
        obtain ⟨hy, _⟩ := h2
        subst hy
        simp [mentionsLoc]
      · rw [if_neg hb] at h2; cases h2
    · have := ih hr
      simp only [mentionsLoc, List.any_cons, Bool.or_eq_true]
      right
      simpa [mentionsLoc] using this

/-- In a loaded network, every location named in a neighbor list is
itself a key of the network: the bidirectional insertion guarantees the
`roads[place]` lookups of the search never fail. -/
theorem read_distances_closed {lines : List String} {conns : Roads}
    (h : read_distances lines = .ok conns) :
    ∀ x nbrs, getR conns x = some nbrs →
      ∀ y c, (y, c) ∈ nbrs → containsR conns y = true := by
  have hm := read_distances_match h
  intro x nbrs hx y c hyc
  have hmx := hm x
  rw [hx] at hmx
  by_cases hme : mentionsLoc (parsedRecords lines) x = true
  · rw [if_pos hme] at hmx
    cases hmx
    have hy := mem_nfr_mentions hyc
    have hmy := hm y
    rw [if_pos hy] at hmy
    unfold containsR
    rw [hmy]
    rfl
  · rw [Bool.not_eq_true] at hme
    rw [hme] at hmx
    cases hmx

/-- Each record contributes its two entries to the lists of its two
endpoints. -/
theorem nfr_mem_of_rec {recs : List (Loc × Loc × ℚ)} {a b : Loc} {c : ℚ}
    (h : (a, b, c) ∈ recs) :
    (b, c) ∈ neighborsFromRecords recs a ∧ (a, c) ∈ neighborsFromRecords recs b := by
  induction recs with
  | nil => cases h
  | cons r rest ih =>
    obtain ⟨a0, b0, c0⟩ := r
    rcases List.mem_cons.mp h with hh | ht
    · cases hh
      constructor
      · simp [neighborsFromRecords]
      · simp [neighborsFromRecords]
    · obtain ⟨iha, ihb⟩ := ih ht
      exact ⟨by simp only [neighborsFromRecords]; exact List.mem_append.mpr (Or.inr iha),
        by simp only [neighborsFromRecords]; exact List.mem_append.mpr (Or.inr ihb)⟩

/-- The two endpoints of a record are mentioned. -/
theorem mentions_of_rec {recs : List (Loc × Loc × ℚ)} {a b : Loc} {c : ℚ}
    (h : (a, b, c) ∈ recs) :
    mentionsLoc recs a = true ∧ mentionsLoc recs b = true := by
  constructor
  · simp only [mentionsLoc, List.any_eq_true]
    exact ⟨(a, b, c), h, by simp⟩
  · simp only [mentionsLoc, List.any_eq_true]
    exact ⟨(a, b, c), h, by simp⟩

/-- A line that parses as a record puts that record into the record
list of the input. -/
theorem mem_parsedRecords {lines : List String} {line : String} {r : Loc × Loc × ℚ}
    (hline : line ∈ lines) (hlr : lineRecord line = some r) :
    r ∈ parsedRecords lines :=
  List.mem_filterMap.mpr ⟨line, hline, hlr⟩

/-! ### Termination for strictly positive costs -/

/-- The keys of the network, as a finite set. -/
def keySet (roads : Roads) : Finset Loc := (roads.map Prod.fst).toFinset

/-- The network keys a call at cumulative distance `d` could still fire
on: those whose entry is absent or at least `d`.  The cardinality of this
set strictly decreases along every chain of firing recursive calls when
all costs are strictly positive. -/
def pendSet (roads : Roads) (d : ℚ) (t : DTable) : Finset Loc :=
  (keySet roads).filter (fun q => d ≤ ((getD t q).getD d))

theorem mem_pendSet {roads : Roads} {d : ℚ} {t : DTable} {q : Loc} :
    q ∈ pendSet roads d t ↔
      q ∈ keySet roads ∧ (getD t q = none ∨ ∃ v, getD t q = some v ∧ d ≤ v) := by
  unfold pendSet
  rw [Finset.mem_filter]
  cases hg : getD t q with
  | none => simp [hg]
  | some v => simp [hg]

theorem containsR_keySet {roads : Roads} {x : Loc} :
    containsR roads x = true ↔ x ∈ keySet roads := by
  unfold containsR keySet
  induction roads with
  | nil => simp [getR]
  | cons e rest ih =>
    obtain ⟨k, l⟩ := e
    by_cases hk : k = x
    · subst hk; simp [getR]
    · simp only [getR, if_neg hk, List.map_cons, List.toFinset_cons, Finset.mem_insert]
      rw [ih]
      constructor
      · intro h; exact Or.inr h
      · intro h
        rcases h with h | h
        · exact absurd h.symm hk
        · exact h

/-- Tables that only shrink have pending sets that only shrink. -/
theorem pendSet_mono_table {roads : Roads} {a : ℚ} {t2 t1 : DTable}
    (h : DistLe t2 t1) : pendSet roads a t2 ⊆ pendSet roads a t1 := by
  intro q hq
  rw [mem_pendSet] at hq ⊢
  obtain ⟨hk, hv⟩ := hq
  refine ⟨hk, ?_⟩
  cases hg : getD t1 q with
  | none => exact Or.inl rfl
  | some w =>
    obtain ⟨w', hw', hle⟩ := h q w hg
    rcases hv with hnone | ⟨v, hv, hdv⟩
    · rw [hw'] at hnone; cases hnone
    · rw [hw'] at hv
      cases hv
      exact Or.inr ⟨w, rfl, le_trans hdv hle⟩

/-- The key inclusion: once the entry of `p` is at most `d`, the pending
set of any strictly larger cumulative distance over any further-shrunk
table avoids `p` and stays inside the old pending set. -/
theorem pendSet_subset_erase {roads : Roads} {d c : ℚ} {t t' : DTable} {p : Loc}
    (hc : 0 < c) (hp : ∃ vp, getD t' p = some vp ∧ vp ≤ d)
    (hle : DistLe t' t) :
    pendSet roads (d + c) t' ⊆ (pendSet roads d t).erase p := by
  intro q hq
  rw [mem_pendSet] at hq
  obtain ⟨hqk, hqv⟩ := hq
  rw [Finset.mem_erase]
  constructor
  · obtain ⟨vp, hvp, hvple⟩ := hp
    intro he
    subst he
    rcases hqv with hnone | ⟨v, hv, hdv⟩
    · rw [hvp] at hnone; cases hnone
    · rw [hvp] at hv
      cases hv
      linarith
  · rw [mem_pendSet]
    refine ⟨hqk, ?_⟩
    cases hg : getD t q with
    | none => exact Or.inl rfl
    | some w =>
      obtain ⟨w', hw', hw'le⟩ := hle q w hg
      rcases hqv with hnone | ⟨v, hv, hdv⟩
      · rw [hw'] at hnone; cases hnone
      · rw [hw'] at hv
        cases hv
        exact Or.inr ⟨w, rfl, by linarith⟩

/-- The neighbor loop completes whenever every child call has a pending
set smaller than the fuel. -/
theorem runList_terminates {roads : Roads} {fuel : Nat}
    (ihfuel : ∀ (p : Loc) (d : ℚ) (t : DTable),
      containsR roads p = true → (pendSet roads d t).card < fuel →
      ∃ out, dfsFuel fuel p d roads t = .ok out) :
    ∀ (nbrs : Nbrs) (d : ℚ) (t1 : DTable),
      (∀ y c, (y, c) ∈ nbrs → containsR roads y = true ∧ 0 < c) →
      (∀ c, 0 < c → (pendSet roads (d + c) t1).card < fuel) →
      ∃ out, runList (fun p' d' t' => dfsFuel fuel p' d' roads t') nbrs d t1 = .ok out ∧
        DistLe out t1 := by
  intro nbrs
  induction nbrs with
  | nil =>
    intro d t1 hall hbound
    exact ⟨t1, rfl, distLe_refl t1⟩
  | cons yc rest ih =>
    obtain ⟨y, c⟩ := yc
    intro d t1 hall hbound
    obtain ⟨hy, hc⟩ := hall y c (List.mem_cons_self _ _)
    have hcard : (pendSet roads (qadd d c) t1).card < fuel := by
      rw [qadd_eq]
      exact hbound c hc
    obtain ⟨t2, hok⟩ := ihfuel y (qadd d c) t1 hy hcard
    have hle2 : DistLe t2 t1 := dfsFuel_mono fuel y (qadd d c) roads t1 t2 hok
    have hbound2 : ∀ c', 0 < c' → (pendSet roads (d + c') t2).card < fuel := by
      intro c' hc'
      exact lt_of_le_of_lt
        (Finset.card_le_card (pendSet_mono_table hle2)) (hbound c' hc')
    obtain ⟨out, hrest, hleout⟩ :=
      ih d t2 (fun y' c' hm => hall y' c' (List.mem_cons_of_mem _ hm)) hbound2
    refine ⟨out, ?_, distLe_trans hleout hle2⟩
    simp only [runList]
    rw [hok]
    exact hrest

/-- With a closed network (every neighbor is a key) and strictly
positive costs, fuel exceeding the pending-set size guarantees a
completed, error-free run. -/
theorem dfsFuel_terminates (roads : Roads)
    (hclosed : ∀ x nbrs, getR roads x = some nbrs →
      ∀ y c, (y, c) ∈ nbrs → containsR roads y = true)
    (hpos : posCosts roads) :
    ∀ (fuel : Nat) (p : Loc) (d : ℚ) (t : DTable),
      containsR roads p = true →
      (pendSet roads d t).card < fuel →
      ∃ out, dfsFuel fuel p d roads t = .ok out := by
  intro fuel
  induction fuel with
  | zero =>
    intro p d t hp hcard
    exact absurd hcard (Nat.not_lt_zero _)
  | succ fuel ih =>
    intro p d t hp hcard
    have hgr0 : ∃ nbrs, getR roads p = some nbrs := by
      unfold containsR at hp
      cases hg : getR roads p with
      | none => rw [hg] at hp; cases hp
      | some nbrs => exact ⟨nbrs, rfl⟩
    obtain ⟨nbrs, hgr⟩ := hgr0
    have hall : ∀ y c, (y, c) ∈ nbrs → containsR roads y = true ∧ 0 < c :=
      fun y c hm => ⟨hclosed p nbrs hgr y c hm, hpos (p, nbrs) (getR_mem hgr) (y, c) hm⟩
    have hcard' : (pendSet roads d t).card ≤ fuel := Nat.lt_succ_iff.mp hcard
    simp only [dfsFuel]
    cases hgd : getD t p with
    | none =>
      have hpmem : p ∈ pendSet roads d t :=
        mem_pendSet.mpr ⟨containsR_keySet.mp hp, Or.inl hgd⟩
      have hboundc : ∀ c, 0 < c → (pendSet roads (d + c) (setD t p d)).card < fuel := by
        intro c hc
        have hsub : pendSet roads (d + c) (setD t p d) ⊆ (pendSet roads d t).erase p :=
          pendSet_subset_erase hc ⟨d, getD_setD_self t p d, le_refl d⟩
            (distLe_setD_insert d hgd)
        exact lt_of_le_of_lt (Finset.card_le_card hsub)
          (lt_of_lt_of_le (Finset.card_erase_lt_of_mem hpmem) hcard')
      obtain ⟨dist2, hok2, hle2⟩ :=
        runList_terminates ih nbrs d (setD t p d) hall hboundc
      obtain ⟨w, hw, hwle⟩ := hle2 p d (getD_setD_self t p d)
      refine ⟨dist2, ?_⟩
      simp only [dfsStep, hgd, getD_setD_self, if_true, hgr]
      simp only [hok2, hw]
      rw [if_neg (not_lt.mpr hwle)]
    | some entry =>
      by_cases he : entry = d
      · have hpmem : p ∈ pendSet roads d t :=
          mem_pendSet.mpr ⟨containsR_keySet.mp hp, Or.inr ⟨entry, hgd, le_of_eq he.symm⟩⟩
        have hboundc : ∀ c, 0 < c → (pendSet roads (d + c) t).card < fuel := by
          intro c hc
          have hsub : pendSet roads (d + c) t ⊆ (pendSet roads d t).erase p :=
            pendSet_subset_erase hc ⟨entry, hgd, le_of_eq he⟩ (distLe_refl t)
          exact lt_of_le_of_lt (Finset.card_le_card hsub)
            (lt_of_lt_of_le (Finset.card_erase_lt_of_mem hpmem) hcard')
        obtain ⟨dist2, hok2, hle2⟩ := runList_terminates ih nbrs d t hall hboundc
        obtain ⟨w, hw, hwle⟩ := hle2 p entry hgd
        have hwd : w ≤ d := le_trans hwle (le_of_eq he)
        refine ⟨dist2, ?_⟩
        simp only [dfsStep, hgd]
        rw [if_pos he]
        simp only [hgr, hok2, hw]
        rw [if_neg (not_lt.mpr hwd)]
      · by_cases hlt : d < entry
        · have hpmem : p ∈ pendSet roads d t :=
            mem_pendSet.mpr ⟨containsR_keySet.mp hp, Or.inr ⟨entry, hgd, le_of_lt hlt⟩⟩
          have hboundc : ∀ c, 0 < c → (pendSet roads (d + c) (setD t p d)).card < fuel := by
            intro c hc
            have hsub : pendSet roads (d + c) (setD t p d) ⊆ (pendSet roads d t).erase p :=
              pendSet_subset_erase hc ⟨d, getD_setD_self t p d, le_refl d⟩
                (distLe_setD_lower hgd (le_of_lt hlt))
            exact lt_of_le_of_lt (Finset.card_le_card hsub)
              (lt_of_lt_of_le (Finset.card_erase_lt_of_mem hpmem) hcard')
          obtain ⟨dist2, hok2, hle2⟩ :=
            runList_terminates ih nbrs d (setD t p d) hall hboundc
          refine ⟨dist2, ?_⟩
          simp only [dfsStep, hgd]
          rw [if_neg he]
          simp only [hgd]
          rw [if_pos hlt]
          simp only [hgr]
          exact hok2
        · refine ⟨t, ?_⟩
          simp only [dfsStep, hgd]
          rw [if_neg he]
          simp only [hgd]
          rw [if_neg hlt]

/-! ### Non-termination on a zero-cost edge -/

/-- The two labels of the zero-cost counterexample input. -/
def aLoc : Loc := ['A']

def bLoc : Loc := ['B']

/-- The input file with a single record of cost zero. -/
def zeroLines : List String := ["A,B,0"]

/-- The network the loader builds from `zeroLines`. -/
def zeroRoads : Roads := [(aLoc, [(bLoc, 0)]), (bLoc, [(aLoc, 0)])]

/-- The distance table after the first visit of the start. -/
def zeroD1 : DTable := [(aLoc, 0)]

/-- The distance table once both locations were visited. -/
def zeroD : DTable := [(aLoc, 0), (bLoc, 0)]

/-- From the saturated state, the search on a zero-cost edge re-enters
the equal-distance branch forever: no amount of fuel completes it. -/
theorem zero_loop : ∀ f : Nat,
    dfsFuel f aLoc 0 zeroRoads zeroD = .error .fuelOut ∧
    dfsFuel f bLoc 0 zeroRoads zeroD = .error .fuelOut := by
  intro f
  induction f with
  | zero => exact ⟨rfl, rfl⟩
  | succ f ih =>
    obtain ⟨ihA, ihB⟩ := ih
    have hq : qadd 0 0 = (0 : ℚ) := rfl
    constructor
    · have hgA : getD zeroD aLoc = some 0 := rfl
      have hrA : getR zeroRoads aLoc = some [(bLoc, 0)] := rfl
      simp only [dfsFuel, dfsStep, hgA, if_true, hrA, runList, hq, ihB]
    · have hgB : getD zeroD bLoc = some 0 := rfl
      have hrB : getR zeroRoads bLoc = some [(aLoc, 0)] := rfl
      simp only [dfsFuel, dfsStep, hgB, if_true, hrB, runList, hq, ihA]

/-- After inserting the start, the first recursive call reaches the
saturated state and loops. -/
theorem zero_loop1 : ∀ f : Nat,
    dfsFuel (f + 1) bLoc 0 zeroRoads zeroD1 = .error .fuelOut := by
  intro f
  have hq : qadd 0 0 = (0 : ℚ) := rfl
  have hgB : getD zeroD1 bLoc = none := rfl
  have hset : setD zeroD1 bLoc 0 = zeroD := rfl
  have hgB2 : getD zeroD bLoc = some 0 := rfl
  have hrB : getR zeroRoads bLoc = some [(aLoc, 0)] := rfl
  have hA := (zero_loop f).1
  simp only [dfsFuel, dfsStep, hgB, hset, hgB2, if_true, hrB, runList, hq, hA]

/-- The top-level search on the zero-cost network runs out of any amount
of fuel: the Python recursion never returns. -/
theorem zero_nonterm : ∀ f : Nat,
    dfsFuel f aLoc 0 zeroRoads [] = .error .fuelOut := by
  intro f
  match f with
  | 0 => rfl
  | 1 => rfl
  | (g + 2) =>
    have hq : qadd 0 0 = (0 : ℚ) := rfl
    have hgA : getD ([] : DTable) aLoc = none := rfl
    have hset : setD [] aLoc 0 = zeroD1 := rfl
    have hgA2 : getD zeroD1 aLoc = some 0 := rfl
    have hrA : getR zeroRoads aLoc = some [(bLoc, 0)] := rfl
    have hB := zero_loop1 g
    have hunf : dfsFuel (g + 2) aLoc 0 zeroRoads [] =
        dfsStep (fun p d t => dfsFuel (g + 1) p d zeroRoads t) aLoc 0 zeroRoads [] := rfl
    rw [hunf]
    simp only [dfsStep, hgA, hset, hgA2, if_true, hrA, runList, hq]
    simp only [hB]

/-! ### The two revisit branches of one call -/

/-- The equal-distance branch of a `dfs` call fires: after the possible
first-visit insert, the table entry of `place` equals `dist_so_far`
(`distances[place] == dist_so_far`).  On a first visit this always
holds. -/
def branch2Fires (place : Loc) (dsf : ℚ) (dist : DTable) : Prop :=
  (match getD dist place with
   | none => dsf
   | some e => e) = dsf

/-- The strictly-shorter branch of the same call fires: after the
equal-distance branch (including its recursive exploration when it
fired), the current `dist_so_far` is strictly below the table entry of
`place` (`dist_so_far < distances[place]`).  The recursive call is `f`;
the branch does not fire when the call errors before the check. -/
def branch3Fires (f : Loc → ℚ → DTable → Except DfsError DTable)
    (place : Loc) (dsf : ℚ) (roads : Roads) (dist : DTable) : Prop :=
  let dist1 : DTable :=
    match getD dist place with
    | none => setD dist place dsf
    | some _ => dist
  let entry : ℚ :=
    match getD dist place with
    | none => dsf
    | some e => e
  let step2 : Except DfsError DTable :=
    if entry = dsf then
      match getR roads place with
      | none => .error .keyError
      | some nbrs => runList f nbrs dsf dist1
    else .ok dist1
  match step2 with
  | .error _ => False
  | .ok dist2 =>
    match getD dist2 place with
    | none => False
    | some entry2 => dsf < entry2

/-- A first visit always fires the equal-distance branch. -/
theorem branch2_of_first_visit {place : Loc} {dsf : ℚ} {dist : DTable}
    (h : getD dist place = none) : branch2Fires place dsf dist := by
  unfold branch2Fires
  rw [h]

/-- The two branches are mutually exclusive within one call: after a
completed equal-distance branch the entry of `place` can only have gone
down, so the strictly-shorter check fails. -/
theorem branches_exclusive (fuel : Nat) (place : Loc) (dsf : ℚ) (roads : Roads)
    (dist : DTable) (h2 : branch2Fires place dsf dist) :
    ¬ branch3Fires (fun p d t => dfsFuel fuel p d roads t) place dsf roads dist := by
  intro h3
  unfold branch2Fires at h2
  unfold branch3Fires at h3
  have hmono : ∀ p d t out, dfsFuel fuel p d roads t = .ok out → DistLe out t :=
    fun p d t out hp => dfsFuel_mono fuel p d roads t out hp
  cases hgd : getD dist place with
  | none =>
    simp only [hgd, if_true] at h3
    cases hgr : getR roads place with
    | none => simp only [hgr] at h3
    | some nbrs =>
      simp only [hgr] at h3
      cases hrl : runList (fun p d t => dfsFuel fuel p d roads t) nbrs dsf
          (setD dist place dsf) with
      | error e => simp only [hrl] at h3
      | ok dist2 =>
        simp only [hrl] at h3
        obtain ⟨w, hw, hwle⟩ :=
          runList_mono hmono nbrs dsf _ dist2 hrl place dsf (getD_setD_self dist place dsf)
        simp only [hw] at h3
        exact absurd h3 (not_lt.mpr hwle)
  | some entry =>
    simp only [hgd] at h2 h3
    subst h2
    simp only [if_pos rfl, if_true] at h3
    cases hgr : getR roads place with
    | none => simp only [hgr] at h3
    | some nbrs =>
      simp only [hgr] at h3
      cases hrl : runList (fun p d t => dfsFuel fuel p d roads t) nbrs entry dist with
      | error e => simp only [hrl] at h3
      | ok dist2 =>
        simp only [hrl] at h3
        obtain ⟨w, hw, hwle⟩ :=
          runList_mono hmono nbrs entry dist dist2 hrl place entry hgd
        simp only [hw] at h3
        exact absurd h3 (not_lt.mpr hwle)

/-! ### Concrete inputs used by the spec scenarios -/

def cLoc : Loc := ['C']

def dLoc : Loc := ['D']

/-- The concrete scenario input of the spec: `A,B,5`, `B,C,3`, `A,C,10`. -/
def exLines : List String := ["A,B,5", "B,C,3", "A,C,10"]

/-- The network the loader builds from `exLines`. -/
def exRoads : Roads :=
  [(aLoc, [(bLoc, 5), (cLoc, 10)]),
   (bLoc, [(aLoc, 5), (cLoc, 3)]),
   (cLoc, [(bLoc, 3), (aLoc, 10)])]

/-- The distance table of the completed search from `A` on `exRoads`. -/
def exTable : DTable := [(aLoc, 0), (bLoc, 5), (cLoc, 8)]

/-- The table of the same search started on a table holding a stale
entry `100` for `C`: the run lowers it to `8`. -/
def exTableC : DTable := [(cLoc, 8), (aLoc, 0), (bLoc, 5)]

/-- A disconnected input: two separate roads. -/
def discLines : List String := ["A,B,1", "C,D,2"]

/-- The network the loader builds from `discLines`. -/
def discRoads : Roads :=
  [(aLoc, [(bLoc, 1)]), (bLoc, [(aLoc, 1)]), (cLoc, [(dLoc, 2)]), (dLoc, [(cLoc, 2)])]

/-- The table of the completed search from `A` on `discRoads`: `C` and
`D` are never reached. -/
def discTable : DTable := [(aLoc, 0), (bLoc, 1)]

/-- In the disconnected network no path joins `A` to `C`: every path
from `A` stays on the `A`-`B` road. -/
theorem disc_no_path : ¬ ∃ w, IsPath discRoads aLoc cLoc w := by
  have hmem : ∀ x w, IsPath discRoads aLoc x w → x = aLoc ∨ x = bLoc := by
    intro x w hp
    induction hp with
    | refl => exact Or.inl rfl
    | @snoc y w' nbrs z c _ hgr hm ih =>
      rcases ih with hy | hy
      · subst hy
        have hr : getR discRoads aLoc = some [(bLoc, 1)] := rfl
        rw [hr] at hgr
        cases hgr
        simp only [List.mem_singleton, Prod.mk.injEq] at hm
        exact Or.inr hm.1
      · subst hy
        have hr : getR discRoads bLoc = some [(aLoc, 1)] := rfl
        rw [hr] at hgr
        cases hgr
        simp only [List.mem_singleton, Prod.mk.injEq] at hm
        exact Or.inl hm.1
  rintro ⟨w, hp⟩
  rcases hmem cLoc w hp with h | h
  · exact absurd h (by decide)
  · exact absurd h (by decide)

/-! ### The claims -/

/-- C1: for every network built by the loader in which all edge costs
are non-negative, after a completed run of the search from a start
location with initial distance 0 into an initially empty table, every
key of the final distance table stores the true minimum total cost over
all paths from the start to that key: the stored value is the cost of an
actual path and a lower bound on the cost of every path. -/
theorem routes_C1_optimal {lines : List String} {roads : Roads}
    (_hread : read_distances lines = .ok roads) (_hnn : nonnegCosts roads)
    {fuel : Nat} {start : Loc} {out : DTable}
    (hrun : dfsFuel fuel start 0 roads [] = .ok out) :
    ∀ k v, getD out k = some v →
      IsPath roads start k v ∧ ∀ w, IsPath roads start k w → v ≤ w := by
  obtain ⟨hsound, hopt⟩ := dfsFuel_run_optimal hrun
  exact fun k v hv => ⟨hsound k v hv, hopt k v hv⟩

theorem routes_C1_optimal_witness :
    read_distances exLines = .ok exRoads ∧ nonnegCosts exRoads ∧
    dfsFuel 10 aLoc 0 exRoads [] = .ok exTable ∧ getD exTable cLoc = some 8 ∧
    (IsPath exRoads aLoc cLoc 8 ∧ ∀ w, IsPath exRoads aLoc cLoc w → 8 ≤ w) :=
  ⟨by decide, by decide, by decide, by decide,
    @routes_C1_optimal exLines exRoads (by decide) (by decide) 10 aLoc exTable
      (by decide) cLoc 8 (by decide)⟩

/-- C2 counterexample: the single record `A,B,0` has a non-negative
cost and is loaded into a two-location network, yet the search from `A`
never completes: no recursion depth suffices, the equal-distance branch
re-enters forever.  This refutes the claim that non-negative costs make
`dfs(start, 0, roads, dict())` terminate. -/
theorem routes_C2_counterexample :
    read_distances zeroLines = .ok zeroRoads ∧ nonnegCosts zeroRoads ∧
    containsR zeroRoads aLoc = true ∧
    ¬ ∃ (fuel : Nat) (out : DTable), dfsFuel fuel aLoc 0 zeroRoads [] = .ok out := by
  refine ⟨by decide, by decide, by decide, ?_⟩
  rintro ⟨fuel, out, h⟩
  rw [zero_nonterm fuel] at h
  cases h

/-- C2 amended: the recursion terminates once every edge cost is
strictly positive (zero-cost edges loop, see the counterexample): for
every loader-built network with strictly positive costs and a start
location on the map, some recursion-depth bound completes the run. -/
theorem routes_C2_terminates_pos {lines : List String} {roads : Roads}
    (hread : read_distances lines = .ok roads) (hpos : posCosts roads)
    {start : Loc} (hstart : containsR roads start = true) :
    ∃ (fuel : Nat) (out : DTable), dfsFuel fuel start 0 roads [] = .ok out := by
  obtain ⟨out, h⟩ := dfsFuel_terminates roads (read_distances_closed hread) hpos
    ((pendSet roads 0 []).card + 1) start 0 [] hstart (Nat.lt_succ_self _)
  exact ⟨_, out, h⟩

theorem routes_C2_terminates_pos_witness :
    read_distances exLines = .ok exRoads ∧ posCosts exRoads ∧
    containsR exRoads aLoc = true ∧
    ∃ (fuel : Nat) (out : DTable), dfsFuel fuel aLoc 0 exRoads [] = .ok out :=
  ⟨by decide, by decide, by decide,
    @routes_C2_terminates_pos exLines exRoads (by decide) (by decide) aLoc (by decide)⟩

/-- C3: over one completed run the distance table is monotonically
non-increasing per key: every key present before the run is present
after it with a value at most the old one — an entry, once set, is never
raised and never removed; updates only insert new entries or lower
existing ones. -/
theorem routes_C3_monotone {fuel : Nat} {place : Loc} {dsf : ℚ} {roads : Roads}
    {dist out : DTable} (hrun : dfsFuel fuel place dsf roads dist = .ok out) :
    DistLe out dist :=
  dfsFuel_mono fuel place dsf roads dist out hrun

theorem routes_C3_monotone_witness :
    dfsFuel 10 aLoc 0 exRoads [(cLoc, 100)] = .ok exTableC ∧
    getD [(cLoc, 100)] cLoc = some 100 ∧
    ∃ w, getD exTableC cLoc = some w ∧ w ≤ 100 :=
  ⟨by decide, by decide,
    @routes_C3_monotone 10 aLoc 0 exRoads [(cLoc, 100)] exTableC (by decide) cLoc 100 (by decide)⟩

/-- C4 counterexample: there is no call of `dfs` in which both the
equal-distance branch and the strictly-shorter branch fire: after a
completed equal-distance branch the entry of the current place can only
have decreased, so the strict comparison fails.  This refutes the claim
that both branches fire on a first visit and explore the neighbors
twice. -/
theorem routes_C4_counterexample :
    ¬ ∃ (fuel : Nat) (place : Loc) (dsf : ℚ) (roads : Roads) (dist : DTable),
      branch2Fires place dsf dist ∧
      branch3Fires (fun p d t => dfsFuel fuel p d roads t) place dsf roads dist := by
  rintro ⟨fuel, place, dsf, roads, dist, h2, h3⟩
  exact branches_exclusive fuel place dsf roads dist h2 h3

/-- C4 amended: the two revisit branches are mutually exclusive within
one call: a first visit always fires the equal-distance branch, and a
call whose equal-distance branch fired never also fires the
strictly-shorter branch, so that call explores the neighbors once, not
twice. -/
theorem routes_C4_branches_exclusive (fuel : Nat) (place : Loc) (dsf : ℚ)
    (roads : Roads) (dist : DTable) :
    (getD dist place = none → branch2Fires place dsf dist) ∧
    (branch2Fires place dsf dist →
      ¬ branch3Fires (fun p d t => dfsFuel fuel p d roads t) place dsf roads dist) :=
  ⟨fun h => branch2_of_first_visit h,
    fun h2 => branches_exclusive fuel place dsf roads dist h2⟩

theorem routes_C4_branches_exclusive_witness :
    getD ([] : DTable) aLoc = none ∧ branch2Fires aLoc 0 [] ∧
    ¬ branch3Fires (fun p d t => dfsFuel 1 p d zeroRoads t) aLoc 0 zeroRoads [] :=
  ⟨by decide,
    (routes_C4_branches_exclusive 1 aLoc 0 zeroRoads []).1 (by decide),
    (routes_C4_branches_exclusive 1 aLoc 0 zeroRoads []).2
      ((routes_C4_branches_exclusive 1 aLoc 0 zeroRoads []).1 (by decide))⟩

/-- C5: in a successfully loaded network every neighbor list is exactly
the record-derived entries in input order with duplicates kept, and in
particular every record line `A,B,C` puts `(B,C)` in the list of `A`
and `(A,C)` in the list of `B`. -/
theorem routes_C5_round_trip {lines : List String} {conns : Roads}
    (hread : read_distances lines = .ok conns) :
    (∀ x, getR conns x =
      if mentionsLoc (parsedRecords lines) x
      then some (neighborsFromRecords (parsedRecords lines) x) else none) ∧
    (∀ line ∈ lines, ∀ a b c, lineRecord line = some (a, b, c) →
      ∃ la lb, getR conns a = some la ∧ (b, c) ∈ la ∧
        getR conns b = some lb ∧ (a, c) ∈ lb) := by
  have hm := read_distances_match hread
  refine ⟨hm, ?_⟩
  intro line hline a b c hlr
  have hrec := mem_parsedRecords hline hlr
  obtain ⟨hma, hmb⟩ := mentions_of_rec hrec
  obtain ⟨hba, hab⟩ := nfr_mem_of_rec hrec
  have ha := hm a
  have hb := hm b
  rw [if_pos hma] at ha
  rw [if_pos hmb] at hb
  exact ⟨_, _, ha, hba, hb, hab⟩

theorem routes_C5_round_trip_witness :
    read_distances exLines = .ok exRoads ∧
    ("A,B,5" ∈ exLines ∧ lineRecord "A,B,5" = some (aLoc, bLoc, 5)) ∧
    ∃ la lb, getR exRoads aLoc = some la ∧ (bLoc, (5 : ℚ)) ∈ la ∧
      getR exRoads bLoc = some lb ∧ (aLoc, (5 : ℚ)) ∈ lb :=
  ⟨by decide, ⟨by decide, by decide⟩,
    (@routes_C5_round_trip exLines exRoads (by decide)).2 "A,B,5" (by decide) aLoc bLoc 5
      (by decide)⟩

/-- C6: after a completed run from the start location with initial
cumulative distance 0 over a loaded network with non-negative edge
costs, the final table entry of the start location is 0. -/
theorem routes_C6_self_distance {lines : List String} {roads : Roads}
    (_hread : read_distances lines = .ok roads) (hnn : nonnegCosts roads)
    {fuel : Nat} {start : Loc} {out : DTable}
    (hrun : dfsFuel fuel start 0 roads [] = .ok out) :
    getD out start = some 0 := by
  obtain ⟨v, hv, hvle⟩ := dfsFuel_entry_all fuel start 0 roads [] out hrun
  have hsound : TableSound roads start out :=
    dfsFuel_sound fuel roads start start 0 [] out hrun IsPath.refl
      (fun k v h => by cases h)
  have h0 : 0 ≤ v := isPath_nonneg hnn (hsound start v hv)
  have hv0 : v = 0 := le_antisymm hvle h0
  rw [hv0] at hv
  exact hv

theorem routes_C6_self_distance_witness :
    read_distances exLines = .ok exRoads ∧ nonnegCosts exRoads ∧
    dfsFuel 10 aLoc 0 exRoads [] = .ok exTable ∧ getD exTable aLoc = some 0 :=
  ⟨by decide, by decide, by decide,
    @routes_C6_self_distance exLines exRoads (by decide) (by decide) 10 aLoc exTable
      (by decide)⟩

/-- C7: on the concrete input `A,B,5`, `B,C,3`, `A,C,10` the query from
`A` to `C` reports the distance 8 — the path through `B` — and not 10,
the direct edge. -/
theorem routes_C7_concrete :
    mainRun 10 "A" "C" exLines = .ok (.distance 8) ∧
    mainRun 10 "A" "C" exLines ≠ .ok (.distance 10) := by
  constructor
  · decide
  · decide

/-- C8: when the start label is absent from the loaded network the
driver reports it and exits with status 1, for any destination and
without running the search (the outcome is the same even with zero
fuel); when the start label is present and the destination is absent,
the destination diagnostic is reported with status 1.  The start check
runs first. -/
theorem routes_C8_missing_labels {lines : List String} {roads : Roads}
    (hread : read_distances lines = .ok roads) (fuel : Nat) (start dest : String) :
    (containsR roads start.toList = false →
      mainRun fuel start dest lines = .ok (.startMissing start) ∧
      exitCode (.startMissing start) = 1) ∧
    (containsR roads start.toList = true → containsR roads dest.toList = false →
      mainRun fuel start dest lines = .ok (.destMissing dest) ∧
      exitCode (.destMissing dest) = 1) := by
  constructor
  · intro h1
    refine ⟨?_, rfl⟩
    simp only [mainRun, hread, h1, Bool.not_false, if_true]
  · intro h1 h2
    refine ⟨?_, rfl⟩
    simp only [mainRun, hread, h1, h2, Bool.not_true, Bool.not_false,
      Bool.false_eq_true, if_false, if_true]

theorem routes_C8_missing_labels_witness :
    read_distances exLines = .ok exRoads ∧ containsR exRoads "Q".toList = false ∧
    mainRun 0 "Q" "C" exLines = .ok (.startMissing "Q") ∧
    exitCode (.startMissing "Q") = 1 :=
  ⟨by decide, by decide,
    ((@routes_C8_missing_labels exLines exRoads (by decide) 0 "Q" "C").1 (by decide)).1,
    ((@routes_C8_missing_labels exLines exRoads (by decide) 0 "Q" "C").1 (by decide)).2⟩

/-- C9: a destination that is a key of the loaded network but has no
path of edges from the start is absent from the final distance table,
and the driver reports the unreachable outcome as a normal result with
exit status 0, not an error. -/
theorem routes_C9_unreachable {lines : List String} {roads : Roads}
    (hread : read_distances lines = .ok roads)
    {start dest : String} (hs : containsR roads start.toList = true)
    (hd : containsR roads dest.toList = true)
    (hnp : ¬ ∃ w, IsPath roads start.toList dest.toList w)
    {fuel : Nat} {out : DTable}
    (hrun : dfsFuel fuel start.toList 0 roads [] = .ok out) :
    getD out dest.toList = none ∧
    mainRun fuel start dest lines = .ok .unreachable ∧
    exitCode .unreachable = 0 := by
  have hnone : getD out dest.toList = none := by
    cases hg : getD out dest.toList with
    | none => rfl
    | some v =>
      have hsound : TableSound roads start.toList out :=
        dfsFuel_sound fuel roads start.toList start.toList 0 [] out hrun IsPath.refl
          (fun k v h => by cases h)
      exact absurd ⟨v, hsound _ v hg⟩ hnp
  refine ⟨hnone, ?_, rfl⟩
  simp only [mainRun, hread, hs, hd, Bool.not_true, Bool.false_eq_true, if_false,
    hrun, hnone]

theorem routes_C9_unreachable_witness :
    read_distances discLines = .ok discRoads ∧
    containsR discRoads "A".toList = true ∧ containsR discRoads "C".toList = true ∧
    dfsFuel 10 "A".toList 0 discRoads [] = .ok discTable ∧
    getD discTable "C".toList = none ∧
    mainRun 10 "A" "C" discLines = .ok .unreachable ∧
    exitCode .unreachable = 0 := by
  refine ⟨by decide, by decide, by decide, by decide, ?_⟩
  exact (@routes_C9_unreachable discLines discRoads (by decide) "A" "C" (by decide)
    (by decide) disc_no_path 10 discTable (by decide)).2.1 ▸
    ⟨(@routes_C9_unreachable discLines discRoads (by decide) "A" "C" (by decide)
      (by decide) disc_no_path 10 discTable (by decide)).1,
     (@routes_C9_unreachable discLines discRoads (by decide) "A" "C" (by decide)
      (by decide) disc_no_path 10 discTable (by decide)).2⟩

/-- C10: a non-blank, non-comment line with fewer than three
comma-separated fields makes the loader raise the missing-field
IndexError — not the documented value-conversion ParseError — and the
load of any input starting with that line aborts with that error, so no
network is returned. -/
theorem routes_C10_short_line (conns : Roads) (line : String)
    (h1 : startsWithHash (trimChars line.toList) = false)
    (h2 : (trimChars line.toList).isEmpty = false)
    (h3 : (splitOnComma (trimChars line.toList)).length < 3) :
    processLine conns line = .error .indexError ∧
    ∀ rest, loadLines (line :: rest) conns = .error .indexError := by
  have hcb : (startsWithHash (trimChars line.toList) || (trimChars line.toList).isEmpty)
      = false := by rw [h1, h2]; rfl
  have hmain : processLine conns line = .error .indexError := by
    simp only [processLine, hcb, Bool.false_eq_true, if_false]
    cases hg1 : (splitOnComma (trimChars line.toList)).get? 1 with
    | none => rfl
    | some pt =>
      have hg2 : (splitOnComma (trimChars line.toList)).get? 2 = none :=
        List.get?_eq_none.mpr (by omega)
      simp only [hg2]
  refine ⟨hmain, fun rest => ?_⟩
  simp only [loadLines, hmain]

theorem routes_C10_short_line_witness :
    startsWithHash (trimChars "A,B".toList) = false ∧
    (trimChars "A,B".toList).isEmpty = false ∧
    (splitOnComma (trimChars "A,B".toList)).length < 3 ∧
    processLine [] "A,B" = .error .indexError ∧
    ∀ rest, loadLines ("A,B" :: rest) [] = .error .indexError := by
  refine ⟨by decide, by decide, by decide, ?_⟩
  exact ⟨(routes_C10_short_line [] "A,B" (by decide) (by decide) (by decide)).1,
    (routes_C10_short_line [] "A,B" (by decide) (by decide) (by decide)).2⟩
